import Mathlib

/-
Formal model of the tradedesk-dukascopy ingestion-and-aggregation engine
(`tradedesk_dukascopy/export.py`), shallowly embedded in Lean 4.

Modelling conventions:
  * bytes are `List Nat` (each entry a byte value; big-endian words are
    assembled modulo 256, matching `struct.unpack` on genuine bytes);
  * UTC instants are integers counting microseconds since the epoch
    (Python `datetime` has microsecond resolution);
  * IEEE-754 binary32 values are modelled exactly as rationals: a float32
    bit pattern is decoded by the textbook formula and finiteness is the
    exponent-field test.  All subsequent price arithmetic in the engine is
    modelled as exact rational arithmetic;
  * LZMA decompression is external library code; functions that consume a
    decompressed payload are modelled directly on the decompressed bytes;
  * network and filesystem effects are modelled by explicit inputs
    (a list of per-attempt HTTP responses, an optional cache entry) and
    explicit outputs (cache effect, delay trace, network-call count).
-/

namespace Dukascopy

/-
`_symbol_normalise` (export.py:63-80): strip the input, reject an empty
result, keep alphanumeric characters, uppercase them.  `pyWhitespace` is
the set of characters Python `str.strip` removes (the characters for which
`str.isspace` holds); `str.isalnum` is modelled on the ASCII subset.
-/

def pyWhitespace : List Char :=
  [' ', '\t', '\n', '\r', '\x0b', '\x0c', '\x1c', '\x1d', '\x1e', '\x1f',
    '\x85', '\xa0', '\u1680', '\u2000', '\u2001', '\u2002', '\u2003', '\u2004',
    '\u2005', '\u2006', '\u2007', '\u2008', '\u2009', '\u200a', '\u2028',
    '\u2029', '\u202f', '\u205f', '\u3000']

def pyIsSpace (c : Char) : Bool :=
  decide (c ∈ pyWhitespace)

def pyStrip (s : List Char) : List Char :=
  ((s.dropWhile pyIsSpace).reverse.dropWhile pyIsSpace).reverse

def symbolNormalise (s : List Char) : Except String (List Char) :=
  let raw := pyStrip s
  if raw = [] then Except.error "Empty symbol"
  else Except.ok ((raw.filter Char.isAlphanum).map Char.toUpper)

/-
`_iter_hours` (export.py:83-92): floor the start to the hour, bump by one
hour if that moved it backwards, then yield hourly instants below the
exclusive end.  Instants are microseconds since the epoch.
-/

def hourUS : Nat := 3600000000

def dayUS : Nat := 86400000000

def floorHour (t : Nat) : Nat := t - t % hourUS

def roundUpHour (t : Nat) : Nat :=
  if floorHour t < t then floorHour t + hourUS else floorHour t

def iterHoursFrom (endEx cur : Nat) : List Nat :=
  if h : cur < endEx then cur :: iterHoursFrom endEx (cur + 3600000000) else []
termination_by endEx - cur
decreasing_by omega

def iterHours (start endEx : Nat) : List Nat :=
  iterHoursFrom endEx (roundUpHour start)

/-
Binary tick codec (`_decode_ticks`, export.py:210-246, and
`_probe_price_format`, export.py:173-202).  A record is 20 bytes:
word 0 is an int32 millisecond offset, words 1-4 are prices/volumes.
-/

def be32 (b0 b1 b2 b3 : Nat) : Nat :=
  (b0 % 256) * 16777216 + (b1 % 256) * 65536 + (b2 % 256) * 256 + (b3 % 256)

/- Two-complement reading of a 32-bit word, as `struct.unpack` with `>i`. -/
def toInt32 (w : Nat) : Int :=
  if w % 4294967296 < 2147483648 then ((w % 4294967296 : Nat) : Int)
  else ((w % 4294967296 : Nat) : Int) - 4294967296

/- The 32-bit word at field index `k` (0..4) of a 20-byte record. -/
def fieldW (r : List Nat) (k : Nat) : Nat :=
  be32 (r.getD (4 * k) 0) (r.getD (4 * k + 1) 0) (r.getD (4 * k + 2) 0) (r.getD (4 * k + 3) 0)

/- IEEE-754 binary32: finite iff the exponent field is not all-ones. -/
def f32IsFinite (w : Nat) : Bool :=
  (w / 8388608) % 256 ≠ 255

/-
Exact rational value of a finite binary32 bit pattern (sign, biased
exponent, mantissa).  On a non-finite pattern the formula value is a
modelling artefact and is never relied upon.
-/
def f32Val (w : Nat) : ℚ :=
  let sgn : ℚ := if (w / 2147483648) % 2 = 1 then -1 else 1
  let e := (w / 8388608) % 256
  let m := w % 8388608
  if e = 0 then sgn * m / (2 ^ 149 : ℚ)
  else sgn * (8388608 + m) * (2 ^ e : ℚ) / (2 ^ 150 : ℚ)

/- Split a byte string into consecutive 20-byte records. -/
def chunks20 (raw : List Nat) : List (List Nat) :=
  match raw with
  | [] => []
  | b :: rest => (b :: rest).take 20 :: chunks20 ((b :: rest).drop 20)
termination_by raw.length
decreasing_by simp only [List.length_drop, List.length_cons]; omega

/-
The decoded tick (`Tick` dataclass, export.py:54-60).  `ts` is microseconds
since the epoch: `hour_start + timedelta(milliseconds=ms)`.
-/
structure Tick where
  ts : Int
  bid : ℚ
  ask : ℚ
  bid_vol : ℚ
  ask_vol : ℚ
deriving DecidableEq, Repr

/-
`_decode_ticks(hour_start, compressed, price_format, price_divisor)`:
modelled on the decompressed bytes `raw` (the source first runs
`lzma.decompress`).  `hourStart` is in microseconds; a record whose ms
field reads back as `ms` stamps `hourStart + 1000 * ms`.
-/
def decodeTicks (hourStart : Int) (raw : List Nat) (priceFormat : String)
    (priceDivisor : ℚ) : Except String (List Tick) :=
  if raw.length % 20 ≠ 0 then
    Except.error "Unexpected bi5 payload length (not multiple of 20)"
  else if priceFormat = "float" then
    Except.ok ((chunks20 raw).map (fun r =>
      { ts := hourStart + 1000 * toInt32 (fieldW r 0)
        bid := f32Val (fieldW r 2)
        ask := f32Val (fieldW r 1)
        bid_vol := f32Val (fieldW r 4)
        ask_vol := f32Val (fieldW r 3) }))
  else if priceFormat = "int" then
    let div : ℚ := if priceDivisor = 0 then 1 else priceDivisor
    Except.ok ((chunks20 raw).map (fun r =>
      { ts := hourStart + 1000 * toInt32 (fieldW r 0)
        bid := (toInt32 (fieldW r 2) : ℚ) / div
        ask := (toInt32 (fieldW r 1) : ℚ) / div
        bid_vol := f32Val (fieldW r 4)
        ask_vol := f32Val (fieldW r 3) }))
  else Except.error "price_format must be float or int"

/-
`_probe_price_format(compressed)`: modelled on `first`, the decompressed
bytes made available by the streaming read of at most 20 bytes.  The
comparison against the Python literal `1e-6` coincides with comparison
against the exact rational 1/1000000: no binary32 value lies between them.
-/
def probePriceFormat (first : List Nat) : Except String String :=
  if first.length < 20 then Except.error "bi5 too short to probe"
  else
    let askW := fieldW first 1
    let bidW := fieldW first 2
    if ¬ f32IsFinite askW ∨ ¬ f32IsFinite bidW then Except.ok "int"
    else if |f32Val askW| < 1 / 1000000 ∧ |f32Val bidW| < 1 / 1000000 then Except.ok "int"
    else Except.ok "float"

/-
`_download_bi5(url, cache_path, timeout, retries)` (export.py:105-171).
The network is an explicit list of per-attempt responses; the cache is an
explicit optional entry.  The trace records the returned value
(`none` = HTTP 404 / exhausted = "missing"; `some []` = empty hour;
`some data` = payload), the number of network requests issued, the sleep
delays performed, and the effect on the cache.
-/

inductive HttpResp where
  | notFound
  | ok (body : List Nat)
  | failure
deriving DecidableEq, Repr

inductive CacheEffect where
  | untouched
  | markEmpty
  | atomicWrite (data : List Nat)
deriving DecidableEq, Repr

structure FetchTrace where
  result : Option (List Nat)
  networkCalls : Nat
  delays : List ℚ
  cacheEffect : CacheEffect
deriving DecidableEq, Repr

def RETRY_BASE_DELAY : ℚ := 1 / 2

def RETRY_MAX_DELAY : ℚ := 4

def RETRY_BACKOFF_FACTOR : ℚ := 2

/- One entry of `resps` per remaining attempt of the retry loop. -/
def retryLoop (cacheEnabled : Bool) (delay : ℚ) : List HttpResp → FetchTrace
  | [] => ⟨none, 0, [], CacheEffect.untouched⟩
  | r :: rest =>
    match r with
    | HttpResp.notFound => ⟨none, 1, [], CacheEffect.untouched⟩
    | HttpResp.ok body =>
        if body.length = 0 then
          ⟨some [], 1, [], if cacheEnabled then CacheEffect.markEmpty else CacheEffect.untouched⟩
        else if body.length < 64 then
          ⟨some [], 1, [], if cacheEnabled then CacheEffect.markEmpty else CacheEffect.untouched⟩
        else
          ⟨some body, 1, [],
            if cacheEnabled then CacheEffect.atomicWrite body else CacheEffect.untouched⟩
    | HttpResp.failure =>
        match rest with
        | [] => ⟨none, 1, [], CacheEffect.untouched⟩
        | r2 :: rest2 =>
          let t := retryLoop cacheEnabled (min (delay * RETRY_BACKOFF_FACTOR) RETRY_MAX_DELAY)
            (r2 :: rest2)
          ⟨t.result, t.networkCalls + 1, delay :: t.delays, t.cacheEffect⟩

/-
`cache = none`: caching disabled (`cache_path is None`).
`cache = some none`: caching enabled, no entry on disk.
`cache = some (some data)`: entry on disk with contents `data`
(possibly zero bytes).
-/
def downloadBi5 (cache : Option (Option (List Nat))) (resps : List HttpResp) : FetchTrace :=
  match cache with
  | some (some data) => ⟨some data, 0, [], CacheEffect.untouched⟩
  | some none => retryLoop true RETRY_BASE_DELAY resps
  | none => retryLoop false RETRY_BASE_DELAY resps

/- Number of leading transport failures of a response list. -/
def leadingFailures (resps : List HttpResp) : Nat :=
  (resps.takeWhile (fun r => r == HttpResp.failure)).length

/-
`_ticks_to_candles(ticks, resample_rule, price_side)` (export.py:249-284).
A pandas resample at a fixed-width rule floors each timestamp to its
bucket; `ohlc()` takes first/last/max/min per bucket and the volume series
is summed.  Rows with no ticks are dropped (`dropna`).  The pandas index
sort is stable, modelled by a stable insertion sort on the timestamp key.
-/

structure Candle where
  op : ℚ
  hi : ℚ
  lo : ℚ
  cl : ℚ
  vol : ℚ
deriving DecidableEq, Repr

structure Frame where
  columns : List String
  rows : List (Int × Candle)
deriving DecidableEq, Repr

def ohlcvColumns : List String := ["open", "high", "low", "close", "volume"]

def insertByKey {α : Type} (x : Int × α) : List (Int × α) → List (Int × α)
  | [] => [x]
  | y :: ys => if x.1 ≤ y.1 then x :: y :: ys else y :: insertByKey x ys

def sortByKey {α : Type} (l : List (Int × α)) : List (Int × α) :=
  l.foldr insertByKey []

/- Bucket start of instant `t` for a positive bucket width `w`. -/
def bucketOf (w : Int) (t : Int) : Int := t - t % w

/- A data point: (timestamp, price, volume). -/
def Pt : Type := Int × ℚ × ℚ

def groupBuckets (w : Int) : List (Int × ℚ × ℚ) → List (Int × List (Int × ℚ × ℚ))
  | [] => []
  | p :: ps =>
    (bucketOf w p.1, p :: ps.takeWhile (fun q => bucketOf w q.1 == bucketOf w p.1)) ::
      groupBuckets w (ps.dropWhile (fun q => bucketOf w q.1 == bucketOf w p.1))
termination_by l => l.length
decreasing_by
  have := (List.dropWhile_sublist (l := ps)
    (fun q => bucketOf w q.1 == bucketOf w p.1)).length_le
  simp only [List.length_cons]
  omega

def candleOf (g : List (Int × ℚ × ℚ)) : Candle :=
  match g with
  | [] => ⟨0, 0, 0, 0, 0⟩
  | p :: rest =>
    { op := p.2.1
      hi := rest.foldl (fun a q => max a q.2.1) p.2.1
      lo := rest.foldl (fun a q => min a q.2.1) p.2.1
      cl := rest.foldl (fun _ q => q.2.1) p.2.1
      vol := rest.foldl (fun a q => a + q.2.2) p.2.2 }

def priceSeries (side : String) (ticks : List Tick) :
    Except String (List (Int × ℚ × ℚ)) :=
  if side = "bid" then
    Except.ok (ticks.map (fun t => (t.ts, t.bid, t.bid_vol)))
  else if side = "ask" then
    Except.ok (ticks.map (fun t => (t.ts, t.ask, t.ask_vol)))
  else if side = "mid" then
    Except.ok (ticks.map (fun t => (t.ts, (t.bid + t.ask) / 2, (t.bid_vol + t.ask_vol) / 2)))
  else Except.error "price_side must be one of bid ask mid"

def ticksToCandles (ticks : List Tick) (w : Int) (side : String) :
    Except String Frame :=
  if ticks = [] then Except.ok ⟨ohlcvColumns, []⟩
  else
    match priceSeries side ticks with
    | Except.error e => Except.error e
    | Except.ok pts =>
        Except.ok ⟨ohlcvColumns,
          (groupBuckets w (sortByKey pts)).map (fun g => (g.1, candleOf g.2))⟩

/-
Cross-hour merge (export.py:543-545): concatenate the accumulated frames,
sort by bucket start, clip to `[lo, hi]` (the caller passes
`hi = end_inclusive + 1 day - 1 microsecond`), drop duplicate bucket
starts keeping the last occurrence.
-/

def dedupKeepLast {α : Type} : List (Int × α) → List (Int × α)
  | [] => []
  | x :: xs =>
    if xs.any (fun y => y.1 == x.1) then dedupKeepLast xs else x :: dedupKeepLast xs

def mergeFrames (frames : List (List (Int × Candle))) (lo hi : Int) :
    List (Int × Candle) :=
  dedupKeepLast ((sortByKey frames.flatten).filter
    (fun r => decide (lo ≤ r.1) && decide (r.1 ≤ hi)))

/-
The per-hour consumption step of `export_range` (export.py:481-531) and the
run over all hours.  Decoding and resampling of a compressed payload go
through LZMA, so they are abstracted into two oracles: `dec` gives, for a
compressed payload, either the resampled bar rows (possibly none), a
decompression error (`lzma.LZMAError`), or any other decode error —
modelling the guarded `_decode_ticks`/`_ticks_to_candles` block
(export.py:497-531); `probe` gives the result of
`_probe_price_format` on a compressed payload, where an error is a raised
exception.  The probe of the first non-empty hour (export.py:493-495) runs
OUTSIDE the try block: if it raises, the exception escapes the drain loop
and aborts the whole run, with no self-heal and no decode_failed count.
-/

inductive DecodeOutcome where
  | ok (bars : List (Int × Candle))
  | lzmaError
  | otherError
deriving DecidableEq, Repr

structure HourInput where
  comp : Option (List Nat)
  cacheExists : Bool
  refetch : Option (List Nat)
deriving DecidableEq, Repr

structure HourStep where
  frames : List (List (Int × Candle))
  missing404 : Nat
  empty200 : Nat
  downloaded : Nat
  decodeFailed : Nat
  resampledNonempty : Nat
  progressAdv : Nat
  cacheDeleted : Bool
  refetched : Bool
deriving DecidableEq, Repr

/- The guarded decode/self-heal block (export.py:497-531) for a non-empty
payload `c` of one hour. -/
def decodeHour (dec : List Nat → DecodeOutcome) (cacheExists : Bool)
    (c : List Nat) (refetch : Option (List Nat)) : HourStep :=
  match dec c with
  | DecodeOutcome.ok bars =>
      if bars = [] then ⟨[], 0, 0, 1, 0, 0, 1, false, false⟩
      else ⟨[bars], 0, 0, 1, 0, 1, 1, false, false⟩
  | DecodeOutcome.otherError => ⟨[], 0, 0, 1, 1, 0, 1, false, false⟩
  | DecodeOutcome.lzmaError =>
      match refetch with
      | none => ⟨[], 0, 0, 1, 0, 0, 1, cacheExists, true⟩
      | some c2 =>
        match dec c2 with
        | DecodeOutcome.ok bars =>
            if bars = [] then ⟨[], 0, 0, 1, 0, 0, 1, cacheExists, true⟩
            else ⟨[bars], 0, 0, 1, 0, 1, 1, cacheExists, true⟩
        | _ => ⟨[], 0, 0, 1, 1, 0, 1, cacheExists, true⟩

/- One drained hour (export.py:481-531).  `fmt` is the running
`detected_format`; while it is unset, the first non-empty payload is probed
outside any handler, so a probe error aborts (`Except.error`). -/
def processHour (probe : List Nat → Except String String)
    (dec : List Nat → DecodeOutcome) (fmt : Option String) (h : HourInput) :
    Except String (HourStep × Option String) :=
  match h.comp with
  | none => Except.ok (⟨[], 1, 0, 0, 0, 0, 1, false, false⟩, fmt)
  | some c =>
    if c.length = 0 then Except.ok (⟨[], 0, 1, 0, 0, 0, 1, false, false⟩, fmt)
    else
      match fmt with
      | some f => Except.ok (decodeHour dec h.cacheExists c h.refetch, some f)
      | none =>
        match probe c with
        | Except.error e => Except.error e
        | Except.ok f => Except.ok (decodeHour dec h.cacheExists c h.refetch, some f)

structure RunAcc where
  frames : List (List (Int × Candle))
  missing404 : Nat
  empty200 : Nat
  downloaded : Nat
  decodeFailed : Nat
  resampledNonempty : Nat
  progressCount : Nat
deriving DecidableEq, Repr

def runHours (probe : List Nat → Except String String)
    (dec : List Nat → DecodeOutcome) (fmt : Option String) :
    List HourInput → Except String RunAcc
  | [] => Except.ok ⟨[], 0, 0, 0, 0, 0, 0⟩
  | h :: rest =>
    match processHour probe dec fmt h with
    | Except.error e => Except.error e
    | Except.ok (s, fmt2) =>
      match runHours probe dec fmt2 rest with
      | Except.error e => Except.error e
      | Except.ok r =>
        Except.ok ⟨s.frames ++ r.frames, s.missing404 + r.missing404,
          s.empty200 + r.empty200, s.downloaded + r.downloaded,
          s.decodeFailed + r.decodeFailed,
          s.resampledNonempty + r.resampledNonempty,
          s.progressAdv + r.progressCount⟩

/-
Run finalisation (export.py:540-545): an uncaught probe exception aborts
the run as-is; otherwise `Failed` (a raised `RuntimeError`) exactly when no
hour contributed a non-empty frame; otherwise the merged, clipped,
de-duplicated bar rows.
-/
def exportRun (probe : List Nat → Except String String)
    (dec : List Nat → DecodeOutcome) (inputs : List HourInput)
    (lo hi : Int) : Except String (List (Int × Candle)) :=
  match runHours probe dec none inputs with
  | Except.error e => Except.error e
  | Except.ok acc =>
    if acc.frames = [] then Except.error "No data produced"
    else Except.ok (mergeFrames acc.frames lo hi)

/-
The ordered drain loop of `export_range` (export.py:441-534): fetches
complete in arbitrary order (`arrivals`); each completion stores its hour
in `hour_data` (`stored`), then the drain loop consumes hours of
`hours_to_fetch` in list order as long as the next required hour is
present, advancing the resample progress counter once per consumed hour.
-/

structure DrainState where
  stored : List Nat
  nextToProcess : Nat
  consumed : List Nat
  progress : Nat
deriving DecidableEq, Repr

def drainAvail (hours : List Nat) (st : DrainState) : DrainState :=
  if h : st.nextToProcess < hours.length then
    if hours.get ⟨st.nextToProcess, h⟩ ∈ st.stored then
      drainAvail hours
        ⟨st.stored.erase (hours.get ⟨st.nextToProcess, h⟩), st.nextToProcess + 1,
          st.consumed ++ [hours.get ⟨st.nextToProcess, h⟩], st.progress + 1⟩
    else st
  else st
termination_by hours.length - st.nextToProcess
decreasing_by omega

def drainLoop (hours : List Nat) (st : DrainState) : List Nat → DrainState
  | [] => st
  | a :: rest =>
    drainLoop hours
      (drainAvail hours ⟨a :: st.stored, st.nextToProcess, st.consumed, st.progress⟩) rest

def drainRun (hours arrivals : List Nat) : DrainState :=
  drainLoop hours ⟨[], 0, [], 0⟩ arrivals

end Dukascopy

namespace Dukascopy

/- Helper lemmas about stripping. -/

lemma pyIsSpace_not_alnum (c : Char) (h : pyIsSpace c = true) :
    c.isAlphanum = false := by
  have hm : c ∈ pyWhitespace := by
    simpa [pyIsSpace] using h
  fin_cases hm <;> decide

lemma filter_alnum_dropWhile (l : List Char) :
    (l.dropWhile pyIsSpace).filter Char.isAlphanum = l.filter Char.isAlphanum := by
  conv_rhs => rw [← List.takeWhile_append_dropWhile (p := pyIsSpace) (l := l)]
  rw [List.filter_append]
  have : (l.takeWhile pyIsSpace).filter Char.isAlphanum = [] := by
    rw [List.filter_eq_nil_iff]
    intro a ha
    have := List.mem_takeWhile_imp ha
    simp [pyIsSpace_not_alnum a this]
  rw [this, List.nil_append]

lemma filter_alnum_pyStrip (s : List Char) :
    (pyStrip s).filter Char.isAlphanum = s.filter Char.isAlphanum := by
  unfold pyStrip
  rw [List.filter_reverse, filter_alnum_dropWhile, List.filter_reverse,
    List.reverse_reverse, filter_alnum_dropWhile]

lemma pyStrip_eq_nil_iff (s : List Char) :
    pyStrip s = [] ↔ ∀ c ∈ s, pyIsSpace c := by
  unfold pyStrip
  rw [List.reverse_eq_nil_iff, List.dropWhile_eq_nil_iff]
  constructor
  · intro h c hc
    by_cases hsp : pyIsSpace c = true
    · exact hsp
    · exfalso
      have hcd : c ∈ s.dropWhile pyIsSpace := by
        have hsplit := List.takeWhile_append_dropWhile (p := pyIsSpace) (l := s)
        rcases (by rw [hsplit]; exact hc : c ∈ s.takeWhile pyIsSpace ++ s.dropWhile pyIsSpace)
          |> List.mem_append.mp with h1 | h2
        · exact absurd (List.mem_takeWhile_imp h1) hsp
        · exact h2
      exact hsp (h c (List.mem_reverse.mpr hcd))
  · intro h c hc
    exact h c ((List.dropWhile_sublist pyIsSpace).subset (List.mem_reverse.mp hc))

/-- C10: `_symbol_normalise` errors exactly on empty or whitespace-only
input; any other input yields (without error) the uppercase alphanumeric
characters of the input in order — in particular the empty string when the
input has no alphanumeric character at all. -/
theorem c10_symbol_normalise (s : List Char) :
    ((∃ e, symbolNormalise s = Except.error e) ↔ ∀ c ∈ s, pyIsSpace c)
    ∧ ((∃ c ∈ s, ¬ pyIsSpace c) →
        symbolNormalise s = Except.ok ((s.filter Char.isAlphanum).map Char.toUpper)) := by
  constructor
  · constructor
    · intro ⟨e, he⟩
      rw [← pyStrip_eq_nil_iff]
      by_contra hne
      simp only [symbolNormalise, if_neg hne] at he
      exact Except.noConfusion he
    · intro h
      refine ⟨"Empty symbol", ?_⟩
      simp only [symbolNormalise, if_pos ((pyStrip_eq_nil_iff s).mpr h)]
  · intro ⟨c, hc, hcs⟩
    have hne : ¬ pyStrip s = [] := by
      rw [pyStrip_eq_nil_iff]
      intro h
      exact hcs (h c hc)
    simp only [symbolNormalise, if_neg hne, filter_alnum_pyStrip]

theorem c10_symbol_normalise_witness :
    symbolNormalise ['u', 's', 'a', '5', '.', '/', 'x'] =
      Except.ok ['U', 'S', 'A', '5', 'X'] :=
  (c10_symbol_normalise ['u', 's', 'a', '5', '.', '/', 'x']).2 ⟨'u', by decide, by decide⟩

/- Closed form of the hour enumerator. -/

lemma iterHoursFrom_closed (endEx cur : Nat) :
    iterHoursFrom endEx cur =
      (List.range ((endEx - cur + 3599999999) / 3600000000)).map
        (fun i => cur + i * 3600000000) := by
  induction cur using iterHoursFrom.induct endEx with
  | case1 cur h ih =>
    rw [iterHoursFrom]
    simp only [dif_pos h]
    rw [ih]
    have hn : (endEx - cur + 3599999999) / 3600000000
        = (endEx - (cur + 3600000000) + 3599999999) / 3600000000 + 1 := by omega
    rw [hn, List.range_succ_eq_map, List.map_cons, List.map_map]
    refine congrArg₂ _ (by omega) (List.map_congr_left ?_)
    intro i _
    simp only [Function.comp_apply]
    omega
  | case2 cur h =>
    rw [iterHoursFrom]
    simp only [dif_neg h]
    have : (endEx - cur + 3599999999) / 3600000000 = 0 := by omega
    rw [this]
    rfl

lemma iterHours_closed (start endEx : Nat) :
    iterHours start endEx =
      (List.range ((endEx - roundUpHour start + 3599999999) / 3600000000)).map
        (fun i => roundUpHour start + i * 3600000000) :=
  iterHoursFrom_closed endEx (roundUpHour start)

/-- C8: the hour enumerator starts at `start` rounded up to the next hour
boundary (unchanged when aligned), its entries step by exactly one hour,
every entry is below the exclusive end, and the sequence is empty (not an
error) when the rounded start already reaches the exclusive end. -/
theorem c8_iter_hours (start endEx : Nat) :
    (start % hourUS = 0 → roundUpHour start = start)
    ∧ (start % hourUS ≠ 0 →
        start < roundUpHour start ∧ roundUpHour start % hourUS = 0
          ∧ roundUpHour start < start + hourUS)
    ∧ (∀ i (h : i < (iterHours start endEx).length),
        (iterHours start endEx).get ⟨i, h⟩ = roundUpHour start + i * hourUS)
    ∧ (∀ x ∈ iterHours start endEx, x < endEx)
    ∧ (iterHours start endEx).length
        = (endEx - roundUpHour start + hourUS - 1) / hourUS
    ∧ (endEx ≤ roundUpHour start → iterHours start endEx = []) := by
  refine ⟨?_, ?_, ?_, ?_, ?_, ?_⟩
  · intro h
    simp only [hourUS] at h
    simp only [roundUpHour, floorHour, hourUS]
    split_ifs <;> omega
  · intro h
    simp only [hourUS] at h
    simp only [roundUpHour, floorHour, hourUS]
    refine ⟨?_, ?_, ?_⟩ <;> split_ifs <;> omega
  · intro i h
    rw [List.get_eq_getElem, List.getElem_of_eq (iterHours_closed start endEx)]
    simp only [List.getElem_map, List.getElem_range, hourUS]
  · intro x hx
    rw [iterHours_closed] at hx
    simp only [List.mem_map, List.mem_range] at hx
    obtain ⟨i, hi, rfl⟩ := hx
    omega
  · rw [iterHours_closed]
    simp only [List.length_map, List.length_range, hourUS]
    omega
  · intro h
    rw [iterHours_closed]
    have : (endEx - roundUpHour start + 3599999999) / 3600000000 = 0 := by omega
    rw [this]
    rfl

/- Lemmas about 20-byte record splitting. -/

lemma chunks20_length (raw : List Nat) :
    raw.length % 20 = 0 → (chunks20 raw).length = raw.length / 20 := by
  induction raw using chunks20.induct with
  | case1 =>
    intro _
    simp [chunks20]
  | case2 b rest ih =>
    intro h
    rw [chunks20]
    simp only [List.length_cons] at h ⊢
    rw [ih (by simp only [List.length_drop, List.length_cons]; omega)]
    simp only [List.length_drop, List.length_cons]
    omega

/-- C1: with a decompressed length that is a multiple of 20, `_decode_ticks`
returns one tick per 20-byte record in record order for both recognized
formats, each stamped `hour_start` plus the record ms offset; under the int
format prices are the raw int32 divided by the divisor with a zero divisor
replaced by 1 (which is never zero); a length not a multiple of 20 is an
error, and an unrecognized format is an invalid-argument error. -/
theorem c1_decode_ticks (hs : Int) (raw : List Nat) (fmt : String) (div : ℚ) :
    (raw.length % 20 = 0 → (fmt = "float" ∨ fmt = "int") →
      ∃ ts, decodeTicks hs raw fmt div = Except.ok ts
        ∧ ts.length = raw.length / 20
        ∧ (∀ i (h1 : i < ts.length) (h2 : i < (chunks20 raw).length),
            (ts.get ⟨i, h1⟩).ts
              = hs + 1000 * toInt32 (fieldW ((chunks20 raw).get ⟨i, h2⟩) 0))
        ∧ (fmt = "int" →
            ∀ i (h1 : i < ts.length) (h2 : i < (chunks20 raw).length),
              (ts.get ⟨i, h1⟩).bid
                  = (toInt32 (fieldW ((chunks20 raw).get ⟨i, h2⟩) 2) : ℚ)
                    / (if div = 0 then 1 else div)
                ∧ (ts.get ⟨i, h1⟩).ask
                  = (toInt32 (fieldW ((chunks20 raw).get ⟨i, h2⟩) 1) : ℚ)
                    / (if div = 0 then 1 else div)))
    ∧ ((if div = 0 then (1 : ℚ) else div) ≠ 0)
    ∧ (raw.length % 20 ≠ 0 → ∃ e, decodeTicks hs raw fmt div = Except.error e)
    ∧ (fmt ≠ "float" → fmt ≠ "int" →
        ∃ e, decodeTicks hs raw fmt div = Except.error e) := by
  refine ⟨?_, ?_, ?_, ?_⟩
  · intro hlen hfmt
    rcases hfmt with hf | hf
    · subst hf
      have hok : decodeTicks hs raw "float" div
          = Except.ok ((chunks20 raw).map (fun r =>
              { ts := hs + 1000 * toInt32 (fieldW r 0)
                bid := f32Val (fieldW r 2)
                ask := f32Val (fieldW r 1)
                bid_vol := f32Val (fieldW r 4)
                ask_vol := f32Val (fieldW r 3) })) := by
        unfold decodeTicks
        rw [if_neg (by omega), if_pos rfl]
      refine ⟨_, hok, ?_, ?_, ?_⟩
      · rw [List.length_map, chunks20_length raw hlen]
      · intro i h1 h2
        simp only [List.get_eq_getElem, List.getElem_map]
      · intro h
        exact absurd h (by decide)
    · subst hf
      have hok : decodeTicks hs raw "int" div
          = Except.ok ((chunks20 raw).map (fun r =>
              { ts := hs + 1000 * toInt32 (fieldW r 0)
                bid := (toInt32 (fieldW r 2) : ℚ) / (if div = 0 then 1 else div)
                ask := (toInt32 (fieldW r 1) : ℚ) / (if div = 0 then 1 else div)
                bid_vol := f32Val (fieldW r 4)
                ask_vol := f32Val (fieldW r 3) })) := by
        unfold decodeTicks
        rw [if_neg (by omega), if_neg (by decide), if_pos rfl]
      refine ⟨_, hok, ?_, ?_, ?_⟩
      · rw [List.length_map, chunks20_length raw hlen]
      · intro i h1 h2
        simp only [List.get_eq_getElem, List.getElem_map]
      · intro _ i h1 h2
        constructor <;> simp only [List.get_eq_getElem, List.getElem_map]
  · split_ifs with h
    · exact one_ne_zero
    · exact h
  · intro h
    refine ⟨"Unexpected bi5 payload length (not multiple of 20)", ?_⟩
    unfold decodeTicks
    rw [if_pos h]
  · intro h1 h2
    by_cases hlen : raw.length % 20 = 0
    · refine ⟨"price_format must be float or int", ?_⟩
      unfold decodeTicks
      rw [if_neg (by omega), if_neg h1, if_neg h2]
    · refine ⟨"Unexpected bi5 payload length (not multiple of 20)", ?_⟩
      unfold decodeTicks
      rw [if_pos hlen]

theorem c1_decode_ticks_witness :
    ∃ ts, decodeTicks 0 (List.replicate 20 0) "int" 0 = Except.ok ts
      ∧ ts.length = 1 := by
  obtain ⟨ts, h1, h2, _⟩ :=
    (c1_decode_ticks 0 (List.replicate 20 0) "int" 0).1 (by decide) (Or.inr rfl)
  exact ⟨ts, h1, by rw [h2]; rfl⟩

/-- C2: with at least 20 decompressed bytes available, `_probe_price_format`
answers int exactly when one of the two price words read as big-endian
float32 is non-finite or both have magnitude below 1e-6, and float in every
other case; with fewer than 20 bytes it fails with a decode error. -/
theorem c2_probe_price_format (first : List Nat) :
    (20 ≤ first.length →
      (probePriceFormat first = Except.ok "int"
          ∨ probePriceFormat first = Except.ok "float")
      ∧ (probePriceFormat first = Except.ok "int" ↔
          (f32IsFinite (fieldW first 1) = false ∨ f32IsFinite (fieldW first 2) = false
            ∨ (|f32Val (fieldW first 1)| < 1 / 1000000
                ∧ |f32Val (fieldW first 2)| < 1 / 1000000))))
    ∧ (first.length < 20 → ∃ e, probePriceFormat first = Except.error e) := by
  constructor
  · intro hlen
    have hnl : ¬ first.length < 20 := by omega
    by_cases hfin : ¬ f32IsFinite (fieldW first 1) ∨ ¬ f32IsFinite (fieldW first 2)
    · constructor
      · left
        simp only [probePriceFormat, if_neg hnl, if_pos hfin]
      · constructor
        · intro _
          rcases hfin with h | h
          · exact Or.inl (by simpa using h)
          · exact Or.inr (Or.inl (by simpa using h))
        · intro _
          simp only [probePriceFormat, if_neg hnl, if_pos hfin]
    · by_cases hsmall : |f32Val (fieldW first 1)| < 1 / 1000000
          ∧ |f32Val (fieldW first 2)| < 1 / 1000000
      · constructor
        · left
          simp only [probePriceFormat, if_neg hnl, if_neg hfin, if_pos hsmall]
        · constructor
          · intro _
            exact Or.inr (Or.inr hsmall)
          · intro _
            simp only [probePriceFormat, if_neg hnl, if_neg hfin, if_pos hsmall]
      · constructor
        · right
          simp only [probePriceFormat, if_neg hnl, if_neg hfin, if_neg hsmall]
        · constructor
          · intro h
            exfalso
            simp only [probePriceFormat, if_neg hnl, if_neg hfin, if_neg hsmall] at h
            exact absurd (Except.ok.inj h) (by decide)
          · intro h
            exfalso
            push_neg at hfin
            rcases h with h | h | h
            · exact absurd (by simpa using h : ¬ f32IsFinite (fieldW first 1)) (by simp [hfin.1])
            · exact absurd (by simpa using h : ¬ f32IsFinite (fieldW first 2)) (by simp [hfin.2])
            · exact hsmall h
  · intro h
    refine ⟨"bi5 too short to probe", ?_⟩
    unfold probePriceFormat
    rw [if_pos h]

theorem c2_probe_price_format_witness :
    probePriceFormat (List.replicate 20 0) = Except.ok "int"
    ∧ (∃ e, probePriceFormat [] = Except.error e) := by
  have hw1 : fieldW (List.replicate 20 0) 1 = 0 := by decide
  have hw2 : fieldW (List.replicate 20 0) 2 = 0 := by decide
  have hv : f32Val 0 = 0 := by
    simp [f32Val]
  refine ⟨((c2_probe_price_format (List.replicate 20 0)).1 (by decide)).2.mpr
      (Or.inr (Or.inr ⟨?_, ?_⟩)),
    (c2_probe_price_format []).2 (by decide)⟩
  · rw [hw1, hv]
    norm_num
  · rw [hw2, hv]
    norm_num

/-- C3: with caching enabled, an existing cache entry — zero-byte included —
is returned as-is with zero network calls; on a miss a 404 answer yields the
missing result after exactly one request with no retry, a 200 body shorter
than 64 bytes (zero-length included) yields the empty result and a zero-byte
cache marker, and a substantial body is returned and written to the cache
atomically. -/
theorem c3_download_cache (entry body : List Nat) (rest : List HttpResp) :
    (∀ resps, downloadBi5 (some (some entry)) resps
        = ⟨some entry, 0, [], CacheEffect.untouched⟩)
    ∧ downloadBi5 (some none) (HttpResp.notFound :: rest)
        = ⟨none, 1, [], CacheEffect.untouched⟩
    ∧ (body.length < 64 →
        downloadBi5 (some none) (HttpResp.ok body :: rest)
          = ⟨some [], 1, [], CacheEffect.markEmpty⟩)
    ∧ (64 ≤ body.length →
        downloadBi5 (some none) (HttpResp.ok body :: rest)
          = ⟨some body, 1, [], CacheEffect.atomicWrite body⟩) := by
  refine ⟨fun resps => rfl, rfl, ?_, ?_⟩
  · intro h
    by_cases h0 : body.length = 0
    · simp only [downloadBi5, retryLoop, if_pos h0, if_pos True.intro]
    · simp only [downloadBi5, retryLoop, if_neg h0, if_pos h, if_pos True.intro]
  · intro h
    have h0 : ¬ body.length = 0 := by omega
    have h64 : ¬ body.length < 64 := by omega
    simp only [downloadBi5, retryLoop, if_neg h0, if_neg h64, if_pos True.intro]

theorem c3_download_cache_witness :
    downloadBi5 (some (some [])) [HttpResp.ok [1, 2, 3]]
      = ⟨some [], 0, [], CacheEffect.untouched⟩
    ∧ downloadBi5 (some none) [HttpResp.ok [1, 2, 3]]
      = ⟨some [], 1, [], CacheEffect.markEmpty⟩ :=
  ⟨(c3_download_cache [] [1, 2, 3] []).1 [HttpResp.ok [1, 2, 3]],
    (c3_download_cache [] [1, 2, 3] []).2.2.1 (by decide)⟩

/- Backoff lemmas for the retry loop. -/

lemma leadingFailures_cons_fail (rest : List HttpResp) :
    leadingFailures (HttpResp.failure :: rest) = leadingFailures rest + 1 := by
  simp [leadingFailures, List.takeWhile_cons]

lemma leadingFailures_cons_other (r : HttpResp) (rest : List HttpResp)
    (h : r ≠ HttpResp.failure) : leadingFailures (r :: rest) = 0 := by
  simp [leadingFailures, List.takeWhile_cons, h]

lemma leadingFailures_le (resps : List HttpResp) :
    leadingFailures resps ≤ resps.length :=
  (List.takeWhile_sublist _).length_le

lemma retryLoop_delays (resps : List HttpResp) :
    ∀ en d, 0 < d → d ≤ 4 →
      (retryLoop en d resps).delays
        = (List.range (min (leadingFailures resps) (resps.length - 1))).map
            (fun i => min (d * 2 ^ i) 4) := by
  induction resps with
  | nil =>
    intro en d _ _
    simp [retryLoop, leadingFailures]
  | cons r rest ih =>
    intro en d hd0 hd4
    match r with
    | HttpResp.notFound =>
      rw [leadingFailures_cons_other _ _ (by decide)]
      simp [retryLoop]
    | HttpResp.ok body =>
      rw [leadingFailures_cons_other _ _ (fun h => HttpResp.noConfusion h)]
      simp only [retryLoop, Nat.zero_min, List.range_zero, List.map_nil]
      split_ifs <;> rfl
    | HttpResp.failure =>
      match rest with
      | [] =>
        simp [retryLoop, leadingFailures]
      | r2 :: rest2 =>
        have hd2 : (0 : ℚ) < min (d * RETRY_BACKOFF_FACTOR) RETRY_MAX_DELAY := by
          simp only [RETRY_BACKOFF_FACTOR, RETRY_MAX_DELAY]
          positivity
        have hd2le : min (d * RETRY_BACKOFF_FACTOR) RETRY_MAX_DELAY ≤ 4 := by
          simp only [RETRY_BACKOFF_FACTOR, RETRY_MAX_DELAY]
          exact min_le_right _ _
        have hrec := ih en (min (d * RETRY_BACKOFF_FACTOR) RETRY_MAX_DELAY) hd2 hd2le
        have hk : min (leadingFailures (HttpResp.failure :: r2 :: rest2))
            ((HttpResp.failure :: r2 :: rest2).length - 1)
            = min (leadingFailures (r2 :: rest2)) ((r2 :: rest2).length - 1) + 1 := by
          rw [leadingFailures_cons_fail]
          have := leadingFailures_le (r2 :: rest2)
          simp only [List.length_cons] at *
          omega
        show (d :: (retryLoop en (min (d * RETRY_BACKOFF_FACTOR) RETRY_MAX_DELAY)
            (r2 :: rest2)).delays) = _
        rw [hrec, hk, List.range_succ_eq_map, List.map_cons, List.map_map]
        refine congrArg₂ _ ?_ (List.map_congr_left ?_)
        · simp only [pow_zero, mul_one]
          exact (min_eq_left hd4).symm
        · intro i _
          simp only [Function.comp_apply, RETRY_BACKOFF_FACTOR, RETRY_MAX_DELAY]

          rcases le_or_lt (d * 2) 4 with hc | hc
          · rw [min_eq_left hc, pow_succ]
            ring_nf
          · rw [min_eq_right (le_of_lt hc)]
            have h1 : (4 : ℚ) ≤ d * 2 ^ (i + 1) := by
              calc (4 : ℚ) ≤ (d * 2) * 2 ^ i := by
                    have h2 : (1 : ℚ) ≤ 2 ^ i := one_le_pow₀ (by norm_num)
                    nlinarith
                _ = d * 2 ^ (i + 1) := by rw [pow_succ]; ring
            have h2 : (4 : ℚ) ≤ 4 * 2 ^ i := by
              have h3 : (1 : ℚ) ≤ 2 ^ i := one_le_pow₀ (by norm_num)
              nlinarith
            rw [min_eq_right h1, min_eq_right h2]

lemma retryLoop_all_fail (resps : List HttpResp)
    (h : ∀ r ∈ resps, r = HttpResp.failure) :
    ∀ en d, (retryLoop en d resps).result = none := by
  induction resps with
  | nil =>
    intro en d
    rfl
  | cons r rest ih =>
    intro en d
    have hr : r = HttpResp.failure := h r (List.mem_cons_self r rest)
    subst hr
    match rest, ih with
    | [], _ => rfl
    | r2 :: rest2, ih =>
      show (retryLoop en (min (d * RETRY_BACKOFF_FACTOR) RETRY_MAX_DELAY)
          (r2 :: rest2)).result = none
      exact ih (fun r hr => h r (List.mem_cons_of_mem _ hr)) en _

/-- C9: on a cache miss (or with caching disabled) the retry delays of one
fetch call are exactly the capped doubling schedule started from the base
delay of 1/2 — so every independent call restarts at 1/2 — with one delay
per non-final failed attempt and none after the final attempt; a call whose
every attempt fails returns the missing result. -/
theorem c9_download_backoff (cache : Option (Option (List Nat)))
    (resps : List HttpResp) :
    (cache = some none ∨ cache = none) →
    (downloadBi5 cache resps).delays
        = (List.range (min (leadingFailures resps) (resps.length - 1))).map
            (fun i => min (RETRY_BASE_DELAY * RETRY_BACKOFF_FACTOR ^ i) RETRY_MAX_DELAY)
    ∧ (downloadBi5 cache resps).delays.length ≤ resps.length - 1
    ∧ ((∀ r ∈ resps, r = HttpResp.failure) →
        (downloadBi5 cache resps).result = none) := by
  intro hc
  have hbase : (0 : ℚ) < RETRY_BASE_DELAY := by norm_num [RETRY_BASE_DELAY]
  have hbase4 : RETRY_BASE_DELAY ≤ 4 := by norm_num [RETRY_BASE_DELAY]
  have hdel : ∀ en, (retryLoop en RETRY_BASE_DELAY resps).delays
      = (List.range (min (leadingFailures resps) (resps.length - 1))).map
          (fun i => min (RETRY_BASE_DELAY * RETRY_BACKOFF_FACTOR ^ i) RETRY_MAX_DELAY) := by
    intro en
    rw [retryLoop_delays resps en RETRY_BASE_DELAY hbase hbase4]
    simp only [RETRY_BACKOFF_FACTOR, RETRY_MAX_DELAY]
  rcases hc with hc | hc <;> subst hc
  · refine ⟨hdel true, ?_, fun h => retryLoop_all_fail resps h true _⟩
    rw [show (downloadBi5 (some none) resps) = retryLoop true RETRY_BASE_DELAY resps from rfl,
      hdel true]
    simp only [List.length_map, List.length_range]
    omega
  · refine ⟨hdel false, ?_, fun h => retryLoop_all_fail resps h false _⟩
    rw [show (downloadBi5 none resps) = retryLoop false RETRY_BASE_DELAY resps from rfl,
      hdel false]
    simp only [List.length_map, List.length_range]
    omega

theorem c9_download_backoff_witness :
    (downloadBi5 (some none)
        [HttpResp.failure, HttpResp.failure, HttpResp.failure]).delays
      = [1 / 2, 1]
    ∧ (downloadBi5 (some none)
        [HttpResp.failure, HttpResp.failure, HttpResp.failure]).result = none := by
  have h := c9_download_backoff (some none)
    [HttpResp.failure, HttpResp.failure, HttpResp.failure] (Or.inl rfl)
  refine ⟨?_, h.2.2 (by decide)⟩
  rw [h.1]
  have hlf : leadingFailures [HttpResp.failure, HttpResp.failure, HttpResp.failure] = 3 := by
    decide
  rw [hlf]
  norm_num [List.range_succ, RETRY_BASE_DELAY, RETRY_BACKOFF_FACTOR, RETRY_MAX_DELAY,
    min_def]

/- Lemmas for the per-bucket OHLCV aggregation. -/

lemma foldl_max_spec (l : List (Int × ℚ × ℚ)) :
    ∀ a : ℚ,
      (l.foldl (fun x q => max x q.2.1) a = a
        ∨ ∃ q ∈ l, l.foldl (fun x q => max x q.2.1) a = q.2.1)
      ∧ a ≤ l.foldl (fun x q => max x q.2.1) a
      ∧ ∀ q ∈ l, q.2.1 ≤ l.foldl (fun x q => max x q.2.1) a := by
  induction l with
  | nil =>
    intro a
    exact ⟨Or.inl rfl, le_refl a, by simp⟩
  | cons q l ih =>
    intro a
    have h := ih (max a q.2.1)
    refine ⟨?_, ?_, ?_⟩
    · rcases h.1 with he | ⟨p, hp, he⟩
      · rcases max_choice a q.2.1 with hm | hm
        · left
          rw [List.foldl_cons, he, hm]
        · right
          exact ⟨q, List.mem_cons_self q l, by rw [List.foldl_cons, he, hm]⟩
      · right
        exact ⟨p, List.mem_cons_of_mem _ hp, by rw [List.foldl_cons]; exact he⟩
    · rw [List.foldl_cons]
      calc a ≤ max a q.2.1 := le_max_left _ _
        _ ≤ _ := h.2.1
    · intro p hp
      rcases List.mem_cons.mp hp with hpq | hp
      · subst hpq
        rw [List.foldl_cons]
        calc p.2.1 ≤ max a p.2.1 := le_max_right _ _
          _ ≤ _ := h.2.1
      · rw [List.foldl_cons]
        exact h.2.2 p hp

lemma foldl_min_spec (l : List (Int × ℚ × ℚ)) :
    ∀ a : ℚ,
      (l.foldl (fun x q => min x q.2.1) a = a
        ∨ ∃ q ∈ l, l.foldl (fun x q => min x q.2.1) a = q.2.1)
      ∧ l.foldl (fun x q => min x q.2.1) a ≤ a
      ∧ ∀ q ∈ l, l.foldl (fun x q => min x q.2.1) a ≤ q.2.1 := by
  induction l with
  | nil =>
    intro a
    exact ⟨Or.inl rfl, le_refl a, by simp⟩
  | cons q l ih =>
    intro a
    have h := ih (min a q.2.1)
    refine ⟨?_, ?_, ?_⟩
    · rcases h.1 with he | ⟨p, hp, he⟩
      · rcases min_choice a q.2.1 with hm | hm
        · left
          rw [List.foldl_cons, he, hm]
        · right
          exact ⟨q, List.mem_cons_self q l, by rw [List.foldl_cons, he, hm]⟩
      · right
        exact ⟨p, List.mem_cons_of_mem _ hp, by rw [List.foldl_cons]; exact he⟩
    · rw [List.foldl_cons]
      calc l.foldl (fun x q => min x q.2.1) (min a q.2.1) ≤ min a q.2.1 := h.2.1
        _ ≤ a := min_le_left _ _
    · intro p hp
      rcases List.mem_cons.mp hp with hpq | hp
      · subst hpq
        rw [List.foldl_cons]
        calc l.foldl (fun x q => min x q.2.1) (min a p.2.1) ≤ min a p.2.1 := h.2.1
          _ ≤ p.2.1 := min_le_right _ _
      · rw [List.foldl_cons]
        exact h.2.2 p hp

lemma getLast?_cons_getD (l : List ℚ) :
    ∀ a : ℚ, (a :: l).getLast? = some (l.getLast?.getD a) := by
  induction l with
  | nil =>
    intro a
    rfl
  | cons b l ih =>
    intro a
    rw [List.getLast?_cons_cons, ih b]
    rfl

lemma foldl_last_spec (l : List (Int × ℚ × ℚ)) :
    ∀ a : ℚ, l.foldl (fun _ q => q.2.1) a
      = ((l.map (fun q => q.2.1)).getLast?).getD a := by
  induction l with
  | nil =>
    intro a
    rfl
  | cons q l ih =>
    intro a
    rw [List.foldl_cons, ih q.2.1, List.map_cons, getLast?_cons_getD]
    rfl

lemma foldl_add_sum (l : List (Int × ℚ × ℚ)) :
    ∀ a : ℚ, l.foldl (fun x q => x + q.2.2) a = a + (l.map (fun q => q.2.2)).sum := by
  induction l with
  | nil =>
    intro a
    simp
  | cons q l ih =>
    intro a
    rw [List.foldl_cons, ih, List.map_cons, List.sum_cons]
    ring

lemma groupBuckets_spec (w : Int) (pts : List (Int × ℚ × ℚ)) :
    (∀ bg ∈ groupBuckets w pts, bg.2 ≠ [] ∧ ∀ q ∈ bg.2, bucketOf w q.1 = bg.1)
    ∧ ((groupBuckets w pts).map (fun bg => bg.2)).flatten = pts := by
  induction pts using groupBuckets.induct w with
  | case1 =>
    rw [groupBuckets]
    exact ⟨by simp, rfl⟩
  | case2 p ps ih =>
    rw [groupBuckets]
    constructor
    · intro bg hbg
      rcases List.mem_cons.mp hbg with hbg | hbg
      · subst hbg
        refine ⟨by simp, ?_⟩
        intro q hq
        rcases List.mem_cons.mp hq with hq | hq
        · subst hq
          rfl
        · have hpred := List.mem_takeWhile_imp hq
          simp only [beq_iff_eq] at hpred
          exact hpred
      · exact ih.1 bg hbg
    · rw [List.map_cons, List.flatten_cons, ih.2]
      simp only [List.cons_append]
      rw [List.takeWhile_append_dropWhile]

/-- C6: `_ticks_to_candles` with price side mid uses the tick midpoints
(bid+ask)/2 as prices and (bid_vol+ask_vol)/2 as volumes; every produced
bucket group is non-empty and homogeneous for its bucket start, the groups
partition the point sequence, and the candle of a group opens at its first
price, closes at its last, takes max/min as high/low and sums the volumes;
the two-tick mid example yields open 101, high 102, low 101, close 102,
volume 10; an empty tick list yields an empty frame carrying the five OHLCV
columns. -/
theorem c6_ticks_to_candles :
    (∀ (ticks : List Tick) (w : Int), ticks ≠ [] →
        ticksToCandles ticks w "mid" = Except.ok ⟨ohlcvColumns,
          (groupBuckets w (sortByKey (ticks.map (fun t =>
            (t.ts, (t.bid + t.ask) / 2, (t.bid_vol + t.ask_vol) / 2))))).map
              (fun g => (g.1, candleOf g.2))⟩)
    ∧ (∀ g : List (Int × ℚ × ℚ), g ≠ [] →
        (g.map (fun q => q.2.1)).head? = some (candleOf g).op
        ∧ (g.map (fun q => q.2.1)).getLast? = some (candleOf g).cl
        ∧ ((candleOf g).hi = (candleOf g).op
            ∨ ∃ q ∈ g, (candleOf g).hi = q.2.1)
        ∧ (∀ q ∈ g, q.2.1 ≤ (candleOf g).hi)
        ∧ ((candleOf g).lo = (candleOf g).op
            ∨ ∃ q ∈ g, (candleOf g).lo = q.2.1)
        ∧ (∀ q ∈ g, (candleOf g).lo ≤ q.2.1)
        ∧ (candleOf g).vol = (g.map (fun q => q.2.2)).sum)
    ∧ (∀ (w : Int) (pts : List (Int × ℚ × ℚ)),
        (∀ bg ∈ groupBuckets w pts, bg.2 ≠ [] ∧ ∀ q ∈ bg.2, bucketOf w q.1 = bg.1)
        ∧ ((groupBuckets w pts).map (fun bg => bg.2)).flatten = pts)
    ∧ ticksToCandles [⟨0, 100, 102, 2, 4⟩, ⟨1000000, 101, 103, 6, 8⟩]
          300000000 "mid"
        = Except.ok ⟨ohlcvColumns, [(0, ⟨101, 102, 101, 102, 10⟩)]⟩
    ∧ (∀ (w : Int) (side : String),
        ticksToCandles [] w side
          = Except.ok ⟨["open", "high", "low", "close", "volume"], []⟩) := by
  refine ⟨?_, ?_, groupBuckets_spec, ?_, ?_⟩
  · intro ticks w hne
    unfold ticksToCandles
    rw [if_neg hne]
    rfl
  · intro g hg
    match g, hg with
    | p :: rest, _ =>
      have hmax := foldl_max_spec rest p.2.1
      have hmin := foldl_min_spec rest p.2.1
      refine ⟨rfl, ?_, ?_, ?_, ?_, ?_, ?_⟩
      · show (p.2.1 :: rest.map (fun q => q.2.1)).getLast? = _
        rw [getLast?_cons_getD]
        show _ = some (rest.foldl (fun _ q => q.2.1) p.2.1)
        rw [foldl_last_spec]
      · rcases hmax.1 with he | ⟨q, hq, he⟩
        · exact Or.inl he
        · exact Or.inr ⟨q, List.mem_cons_of_mem _ hq, he⟩
      · intro q hq
        rcases List.mem_cons.mp hq with hq | hq
        · subst hq
          exact hmax.2.1
        · exact hmax.2.2 q hq
      · rcases hmin.1 with he | ⟨q, hq, he⟩
        · exact Or.inl he
        · exact Or.inr ⟨q, List.mem_cons_of_mem _ hq, he⟩
      · intro q hq
        rcases List.mem_cons.mp hq with hq | hq
        · subst hq
          exact hmin.2.1
        · exact hmin.2.2 q hq
      · show rest.foldl (fun x q => x + q.2.2) p.2.2 = _
        rw [foldl_add_sum]
        simp [List.sum_cons]
  · have hpts : priceSeries "mid" [⟨0, 100, 102, 2, 4⟩, ⟨1000000, 101, 103, 6, 8⟩]
        = Except.ok [(0, 101, 3), (1000000, 102, 7)] := by
      unfold priceSeries
      rw [if_neg (by decide), if_neg (by decide), if_pos rfl]
      norm_num
    have hsort : sortByKey [((0 : Int), (101 : ℚ), (3 : ℚ)),
          ((1000000 : Int), (102 : ℚ), (7 : ℚ))]
        = [(0, 101, 3), (1000000, 102, 7)] := by
      norm_num [sortByKey, insertByKey]
    have hgrp : groupBuckets 300000000 [((0 : Int), (101 : ℚ), (3 : ℚ)),
          ((1000000 : Int), (102 : ℚ), (7 : ℚ))]
        = [(0, [(0, 101, 3), (1000000, 102, 7)])] := by
      rw [groupBuckets]
      norm_num [bucketOf, List.takeWhile, List.dropWhile]
      rw [groupBuckets]
    rw [ticksToCandles, if_neg (by decide), hpts]
    show Except.ok (Frame.mk ohlcvColumns ((groupBuckets 300000000 (sortByKey
        [((0 : Int), (101 : ℚ), (3 : ℚ)), ((1000000 : Int), (102 : ℚ), (7 : ℚ))])).map
          (fun g => (g.1, candleOf g.2))))
      = Except.ok (Frame.mk ohlcvColumns [(0, Candle.mk 101 102 101 102 10)])
    rw [hsort, hgrp]
    norm_num [candleOf]
  · intro w side
    rfl

theorem c6_ticks_to_candles_witness :
    ticksToCandles [⟨0, 100, 102, 2, 4⟩] 300000000 "mid"
      = Except.ok ⟨ohlcvColumns,
          (groupBuckets 300000000 (sortByKey (([⟨0, 100, 102, 2, 4⟩] :
            List Tick).map (fun t =>
              (t.ts, (t.bid + t.ask) / 2, (t.bid_vol + t.ask_vol) / 2))))).map
                (fun g => (g.1, candleOf g.2))⟩ :=
  c6_ticks_to_candles.1 [⟨0, 100, 102, 2, 4⟩] 300000000 (by decide)

theorem c8_iter_hours_witness :
    roundUpHour 7200000000 = 7200000000
    ∧ (3600000001 % hourUS ≠ 0 ∧ 3600000001 < roundUpHour 3600000001)
    ∧ iterHours 10800000000 3600000000 = [] :=
  ⟨(c8_iter_hours 7200000000 0).1 (by decide),
    ⟨by decide, ((c8_iter_hours 3600000001 0).2.1 (by decide)).1⟩,
    (c8_iter_hours 10800000000 3600000000).2.2.2.2.2 (by decide)⟩


/- Lemmas for the cross-hour merge: stable sort, clipping, dedup. -/

lemma insertByKey_perm {α : Type} (x : Int × α) (l : List (Int × α)) :
    (insertByKey x l).Perm (x :: l) := by
  induction l with
  | nil => exact List.Perm.refl _
  | cons y ys ih =>
    rw [insertByKey]
    split_ifs with h
    · exact List.Perm.refl _
    · exact (List.Perm.cons y ih).trans (List.Perm.swap x y ys)

lemma sortByKey_perm {α : Type} (l : List (Int × α)) :
    (sortByKey l).Perm l := by
  induction l with
  | nil => exact List.Perm.refl _
  | cons x xs ih =>
    exact (insertByKey_perm x (sortByKey xs)).trans (List.Perm.cons x ih)

lemma insertByKey_sorted {α : Type} (x : Int × α) (l : List (Int × α))
    (h : l.Pairwise (fun a b => a.1 ≤ b.1)) :
    (insertByKey x l).Pairwise (fun a b => a.1 ≤ b.1) := by
  induction l with
  | nil => exact List.pairwise_singleton _ _
  | cons y ys ih =>
    rw [insertByKey]
    rcases List.pairwise_cons.mp h with ⟨hy, hys⟩
    split_ifs with hle
    · refine List.pairwise_cons.mpr ⟨?_, h⟩
      intro z hz
      rcases List.mem_cons.mp hz with rfl | hz
      · exact hle
      · exact le_trans hle (hy z hz)
    · refine List.pairwise_cons.mpr ⟨?_, ih hys⟩
      intro z hz
      have hz2 := (insertByKey_perm x ys).mem_iff.mp hz
      rcases List.mem_cons.mp hz2 with rfl | hz2
      · exact le_of_not_le hle
      · exact hy z hz2

lemma sortByKey_sorted {α : Type} (l : List (Int × α)) :
    (sortByKey l).Pairwise (fun a b => a.1 ≤ b.1) := by
  induction l with
  | nil => exact List.Pairwise.nil
  | cons x xs ih => exact insertByKey_sorted x (sortByKey xs) ih

lemma dedupKeepLast_subset {α : Type} (l : List (Int × α)) :
    ∀ r ∈ dedupKeepLast l, r ∈ l := by
  induction l with
  | nil => intro r hr; exact absurd hr (by simp [dedupKeepLast])
  | cons x xs ih =>
    intro r hr
    rw [dedupKeepLast] at hr
    split_ifs at hr with h
    · exact List.mem_cons_of_mem _ (ih r hr)
    · rcases List.mem_cons.mp hr with rfl | hr
      · exact List.mem_cons_self _ _
      · exact List.mem_cons_of_mem _ (ih r hr)

lemma dedupKeepLast_keys {α : Type} (l : List (Int × α)) (k : Int) :
    (∃ c, (k, c) ∈ dedupKeepLast l) ↔ (∃ c, (k, c) ∈ l) := by
  induction l with
  | nil => simp [dedupKeepLast]
  | cons x xs ih =>
    rw [dedupKeepLast]
    split_ifs with h
    · rw [ih]
      constructor
      · intro ⟨c, hc⟩
        exact ⟨c, List.mem_cons_of_mem _ hc⟩
      · intro ⟨c, hc⟩
        rcases List.mem_cons.mp hc with he | hc
        · rcases List.any_eq_true.mp h with ⟨y, hy, hk⟩
          refine ⟨y.2, ?_⟩
          have : y.1 = x.1 := by simpa using hk
          have hx1 : x.1 = k := by rw [← he]
          rw [← hx1, ← this]
          exact hy
        · exact ⟨c, hc⟩
    · constructor
      · intro ⟨c, hc⟩
        rcases List.mem_cons.mp hc with he | hc
        · exact ⟨c, by rw [he]; exact List.mem_cons_self _ _⟩
        · obtain ⟨d, hd⟩ := ih.mp ⟨c, hc⟩
          exact ⟨d, List.mem_cons_of_mem _ hd⟩
      · intro ⟨c, hc⟩
        rcases List.mem_cons.mp hc with he | hc
        · exact ⟨c, by rw [← he]; exact List.mem_cons_self _ _⟩
        · obtain ⟨d, hd⟩ := ih.mpr ⟨c, hc⟩
          exact ⟨d, List.mem_cons_of_mem _ hd⟩

lemma dedupKeepLast_strict {α : Type} (l : List (Int × α))
    (h : l.Pairwise (fun a b => a.1 ≤ b.1)) :
    (dedupKeepLast l).Pairwise (fun a b => a.1 < b.1) := by
  induction l with
  | nil => exact List.Pairwise.nil
  | cons x xs ih =>
    rcases List.pairwise_cons.mp h with ⟨hx, hxs⟩
    rw [dedupKeepLast]
    split_ifs with hany
    · exact ih hxs
    · refine List.pairwise_cons.mpr ⟨?_, ih hxs⟩
      intro y hy
      have hymem : y ∈ xs := dedupKeepLast_subset xs y hy
      have hle : x.1 ≤ y.1 := hx y hymem
      have hne : y.1 ≠ x.1 := by
        intro he
        exact hany (List.any_eq_true.mpr ⟨y, hymem, by simpa using he⟩)
      exact lt_of_le_of_ne hle (fun hc => hne hc.symm)

/-- C7: the cross-hour merge (concatenate, stable-sort by bucket start, clip
to the inclusive range up to the end of the final day, drop duplicate bucket
starts keeping the last occurrence) yields bars with strictly increasing,
duplicate-free bucket starts, all inside the clip range and all coming from
the input frames, and it keeps exactly the in-range bucket starts of the
concatenated input. -/
theorem c7_merge_frames (frames : List (List (Int × Candle))) (lo hi : Int) :
    (mergeFrames frames lo hi).Pairwise (fun a b => a.1 < b.1)
    ∧ (∀ r ∈ mergeFrames frames lo hi, lo ≤ r.1 ∧ r.1 ≤ hi ∧ r ∈ frames.flatten)
    ∧ (∀ k : Int, (∃ c, (k, c) ∈ mergeFrames frames lo hi)
        ↔ (lo ≤ k ∧ k ≤ hi ∧ ∃ c, (k, c) ∈ frames.flatten)) := by
  have hmemfil : ∀ r : Int × Candle,
      r ∈ (sortByKey frames.flatten).filter
        (fun r => decide (lo ≤ r.1) && decide (r.1 ≤ hi))
      ↔ (r ∈ frames.flatten ∧ lo ≤ r.1 ∧ r.1 ≤ hi) := by
    intro r
    rw [List.mem_filter, (sortByKey_perm frames.flatten).mem_iff]
    simp [Bool.and_eq_true, decide_eq_true_eq, and_assoc]
  refine ⟨?_, ?_, ?_⟩
  · exact dedupKeepLast_strict _ ((sortByKey_sorted frames.flatten).filter _)
  · intro r hr
    have := (hmemfil r).mp (dedupKeepLast_subset _ r hr)
    exact ⟨this.2.1, this.2.2, this.1⟩
  · intro k
    show (∃ c, (k, c) ∈ dedupKeepLast ((sortByKey frames.flatten).filter
      (fun r => decide (lo ≤ r.1) && decide (r.1 ≤ hi)))) ↔ _
    rw [dedupKeepLast_keys]
    constructor
    · intro ⟨c, hc⟩
      have := (hmemfil (k, c)).mp hc
      exact ⟨this.2.1, this.2.2, c, this.1⟩
    · intro ⟨h1, h2, c, hc⟩
      exact ⟨c, (hmemfil (k, c)).mpr ⟨hc, h1, h2⟩⟩

theorem c7_merge_frames_witness :
    ∃ c, ((3 : Int), c) ∈ mergeFrames
      [[(5, Candle.mk 0 0 0 0 0)], [(3, Candle.mk 1 1 1 1 1)]] 0 10 :=
  (c7_merge_frames [[(5, Candle.mk 0 0 0 0 0)], [(3, Candle.mk 1 1 1 1 1)]] 0 10).2.2 3
    |>.mpr ⟨by decide, by decide, Candle.mk 1 1 1 1 1, by decide⟩


/- The guarded decode block and every non-aborted hour advance the progress
marker exactly once. -/

lemma decodeHour_progress (dec : List Nat → DecodeOutcome) (ce : Bool)
    (c : List Nat) (rf : Option (List Nat)) :
    (decodeHour dec ce c rf).progressAdv = 1 := by
  cases hdc : dec c with
  | ok bars =>
    by_cases hb : bars = [] <;> simp [decodeHour, hdc, hb]
  | otherError => simp [decodeHour, hdc]
  | lzmaError =>
    cases rf with
    | none => simp [decodeHour, hdc]
    | some c2 =>
      cases hdc2 : dec c2 with
      | ok bars =>
        by_cases hb : bars = [] <;> simp [decodeHour, hdc, hdc2, hb]
      | lzmaError => simp [decodeHour, hdc, hdc2]
      | otherError => simp [decodeHour, hdc, hdc2]

lemma processHour_ok_progress (probe : List Nat → Except String String)
    (dec : List Nat → DecodeOutcome) (fmt : Option String) (h : HourInput)
    (s : HourStep) (fmt2 : Option String)
    (hok : processHour probe dec fmt h = Except.ok (s, fmt2)) :
    s.progressAdv = 1 := by
  obtain ⟨comp, ce, rf⟩ := h
  cases comp with
  | none =>
    injection hok with h1
    injection h1 with ha hb
    rw [← ha]
  | some c =>
    by_cases h0 : c.length = 0
    · simp only [processHour, if_pos h0] at hok
      injection hok with h1
      injection h1 with ha hb
      rw [← ha]
    · cases fmt with
      | some f =>
        simp only [processHour, if_neg h0] at hok
        injection hok with h1
        injection h1 with ha hb
        rw [← ha]
        exact decodeHour_progress dec ce c rf
      | none =>
        simp only [processHour, if_neg h0] at hok
        cases hp : probe c with
        | error e =>
          rw [hp] at hok
          cases hok
        | ok f =>
          rw [hp] at hok
          injection hok with h1
          injection h1 with ha hb
          rw [← ha]
          exact decodeHour_progress dec ce c rf

lemma runHours_ok_progress (probe : List Nat → Except String String)
    (dec : List Nat → DecodeOutcome) (inputs : List HourInput) :
    ∀ (fmt : Option String) (acc : RunAcc),
      runHours probe dec fmt inputs = Except.ok acc →
      acc.progressCount = inputs.length := by
  induction inputs with
  | nil =>
    intro fmt acc hok
    injection hok with h1
    rw [← h1]
    rfl
  | cons h rest ih =>
    intro fmt acc hok
    rw [runHours] at hok
    split at hok
    next e heq =>
      cases hok
    next st fmt2 heq =>
      split at hok
      next e2 heq2 =>
        cases hok
      next r heq2 =>
        injection hok with h1
        rw [← h1]
        show st.progressAdv + r.progressCount = rest.length + 1
        rw [processHour_ok_progress probe dec fmt h st fmt2 heq, ih fmt2 r heq2]
        omega

/-- C4 (amended): the guarded decode block self-heals a decompression
error — deleting the suspect cache entry if present, re-fetching once, and
counting the hour decode_failed when the re-fetched payload also fails to
decode — and once the price format is already detected an hour is never an
abort; however, a probe error on the first non-empty payload aborts the
whole run; every hour of a non-aborted run advances progress exactly once,
and a non-aborted run ends in the failure state exactly when the
accumulated frame set — and hence the final merged bar set — is empty. -/
theorem c4_self_heal (probe : List Nat → Except String String)
    (dec : List Nat → DecodeOutcome) (inputs : List HourInput)
    (lo hi : Int) (h : HourInput) (c : List Nat) :
    (dec c = DecodeOutcome.lzmaError →
      (decodeHour dec h.cacheExists c h.refetch).cacheDeleted = h.cacheExists
      ∧ (decodeHour dec h.cacheExists c h.refetch).refetched = true
      ∧ (decodeHour dec h.cacheExists c h.refetch).progressAdv = 1
      ∧ (∀ c2, h.refetch = some c2 →
          (dec c2 = DecodeOutcome.lzmaError ∨ dec c2 = DecodeOutcome.otherError) →
          (decodeHour dec h.cacheExists c h.refetch).decodeFailed = 1))
    ∧ (∀ f, h.comp = some c → c ≠ [] →
        processHour probe dec (some f) h
          = Except.ok (decodeHour dec h.cacheExists c h.refetch, some f))
    ∧ (∀ e, h.comp = some c → c ≠ [] → probe c = Except.error e →
        processHour probe dec none h = Except.error e)
    ∧ (∀ (fmt : Option String) (acc : RunAcc),
        runHours probe dec fmt inputs = Except.ok acc →
        acc.progressCount = inputs.length)
    ∧ (∀ acc : RunAcc, runHours probe dec none inputs = Except.ok acc →
        ((∃ e, exportRun probe dec inputs lo hi = Except.error e)
            ↔ acc.frames = [])
        ∧ ((∃ e, exportRun probe dec inputs lo hi = Except.error e)
            → mergeFrames acc.frames lo hi = [])) := by
  refine ⟨?_, ?_, ?_, runHours_ok_progress probe dec inputs, ?_⟩
  · intro hdec
    obtain ⟨comp, ce, rf⟩ := h
    cases rf with
    | none =>
      refine ⟨?_, ?_, ?_, ?_⟩ <;> simp [decodeHour, hdec]
    | some c2 =>
      refine ⟨?_, ?_, ?_, ?_⟩
      · cases hdc2 : dec c2 with
        | ok bars =>
          by_cases hb : bars = [] <;> simp [decodeHour, hdec, hdc2, hb]
        | lzmaError => simp [decodeHour, hdec, hdc2]
        | otherError => simp [decodeHour, hdec, hdc2]
      · cases hdc2 : dec c2 with
        | ok bars =>
          by_cases hb : bars = [] <;> simp [decodeHour, hdec, hdc2, hb]
        | lzmaError => simp [decodeHour, hdec, hdc2]
        | otherError => simp [decodeHour, hdec, hdc2]
      · exact decodeHour_progress dec ce c (some c2)
      · intro c2x hc2x hfail
        have he : c2x = c2 := by
          injection hc2x with hinj
          exact hinj.symm
        subst he
        rcases hfail with hf2 | hf2 <;> simp [decodeHour, hdec, hf2]
  · intro f hcomp hcne
    obtain ⟨comp, ce, rf⟩ := h
    simp only at hcomp
    subst hcomp
    have h0 : ¬ c.length = 0 := by
      intro h0
      exact hcne (List.length_eq_zero.mp h0)
    simp [processHour, h0]
  · intro e hcomp hcne hprobe
    obtain ⟨comp, ce, rf⟩ := h
    simp only at hcomp
    subst hcomp
    have h0 : ¬ c.length = 0 := by
      intro h0
      exact hcne (List.length_eq_zero.mp h0)
    simp [processHour, h0, hprobe]
  · intro acc hacc
    have hiff : (∃ e, exportRun probe dec inputs lo hi = Except.error e)
        ↔ acc.frames = [] := by
      have hsplit : exportRun probe dec inputs lo hi
          = if acc.frames = [] then Except.error "No data produced"
            else Except.ok (mergeFrames acc.frames lo hi) := by
        unfold exportRun
        rw [hacc]
      rw [hsplit]
      split_ifs with hf
      · exact ⟨fun _ => hf, fun _ => ⟨"No data produced", rfl⟩⟩
      · constructor
        · rintro ⟨e, he⟩
          cases he
        · intro he
          exact absurd he hf
    refine ⟨hiff, ?_⟩
    intro he
    rw [hiff.mp he]
    rfl

theorem c4_self_heal_witness :
    (decodeHour (fun _ => DecodeOutcome.lzmaError) true [1] (some [2])).decodeFailed = 1
    ∧ (⟨[], 0, 0, 1, 1, 0, 1⟩ : RunAcc).progressCount
        = ([⟨some [1], true, some [2]⟩] : List HourInput).length := by
  have h := c4_self_heal (fun _ => Except.ok "float")
    (fun _ => DecodeOutcome.lzmaError) [⟨some [1], true, some [2]⟩] 0 10
    ⟨some [1], true, some [2]⟩ [1]
  exact ⟨(h.1 rfl).2.2.2 [2] rfl (Or.inl rfl),
    h.2.2.2.1 none ⟨[], 0, 0, 1, 1, 0, 1⟩ rfl⟩

/- An explicit run refuting C4 as stated: the first hour carries a
non-empty payload whose probe raises (as for a payload whose stream
decompresses to fewer than 20 bytes), the second hour would decode to a
non-empty bar set, yet the whole run aborts with the probe error — a
single bad hour aborts the run with no self-heal and no decode_failed
count, and the failure is not the empty-bar-set failure. -/
theorem c4_probe_abort_counterexample :
    exportRun
        (fun c => if c.length < 20 then Except.error "bi5 too short to probe"
          else Except.ok "float")
        (fun _ => DecodeOutcome.ok [(0, Candle.mk 1 1 1 1 1)])
        [⟨some [9], false, none⟩, ⟨some (List.replicate 64 0), false, none⟩] 0 10
      = Except.error "bi5 too short to probe"
    ∧ (fun _ : List Nat => DecodeOutcome.ok [(0, Candle.mk 1 1 1 1 1)])
        (List.replicate 64 0) = DecodeOutcome.ok [(0, Candle.mk 1 1 1 1 1)] :=
  ⟨rfl, rfl⟩

/- Drain-loop lemmas: the consumed hours are always exactly the in-order
prefix of the hour list, each consumption bumps the progress counter once,
the multiset of consumed+stored hours equals the multiset of arrivals, and
after draining, the next required hour is never already available. -/

lemma drainAvail_inv (hours : List Nat) (st : DrainState) :
    st.consumed = hours.take st.nextToProcess →
    st.progress = st.consumed.length →
    st.nextToProcess ≤ hours.length →
    (drainAvail hours st).consumed = hours.take (drainAvail hours st).nextToProcess
    ∧ (drainAvail hours st).progress = (drainAvail hours st).consumed.length
    ∧ (drainAvail hours st).nextToProcess ≤ hours.length := by
  induction st using drainAvail.induct hours with
  | case1 x h hmem ih =>
    intro h1 h2 h3
    rw [drainAvail, dif_pos h, if_pos hmem]
    refine ih ?_ ?_ ?_
    · show x.consumed ++ [hours.get ⟨x.nextToProcess, h⟩] = hours.take (x.nextToProcess + 1)
      rw [List.take_succ, ← h1, List.getElem?_eq_getElem h]
      rfl
    · show x.progress + 1 = (x.consumed ++ [_]).length
      rw [List.length_append, h2]
      rfl
    · show x.nextToProcess + 1 ≤ hours.length
      omega
  | case2 x h hmem =>
    intro h1 h2 h3
    rw [drainAvail, dif_pos h, if_neg hmem]
    exact ⟨h1, h2, h3⟩
  | case3 x h =>
    intro h1 h2 h3
    rw [drainAvail, dif_neg h]
    exact ⟨h1, h2, h3⟩

lemma drainAvail_perm (hours : List Nat) (st : DrainState) :
    ((drainAvail hours st).consumed ++ (drainAvail hours st).stored).Perm
      (st.consumed ++ st.stored) := by
  induction st using drainAvail.induct hours with
  | case1 x h hmem ih =>
    rw [drainAvail, dif_pos h, if_pos hmem]
    refine ih.trans ?_
    show ((x.consumed ++ [hours.get ⟨x.nextToProcess, h⟩])
        ++ x.stored.erase (hours.get ⟨x.nextToProcess, h⟩)).Perm _
    rw [List.append_assoc, List.singleton_append]
    exact List.Perm.append_left x.consumed (List.perm_cons_erase hmem).symm
  | case2 x h hmem =>
    rw [drainAvail, dif_pos h, if_neg hmem]
  | case3 x h =>
    rw [drainAvail, dif_neg h]

lemma drainAvail_exit (hours : List Nat) (st : DrainState) :
    ∀ hlt : (drainAvail hours st).nextToProcess < hours.length,
      hours.get ⟨(drainAvail hours st).nextToProcess, hlt⟩
        ∉ (drainAvail hours st).stored := by
  induction st using drainAvail.induct hours with
  | case1 x h hmem ih =>
    rw [drainAvail, dif_pos h, if_pos hmem]
    exact ih
  | case2 x h hmem =>
    rw [drainAvail, dif_pos h, if_neg hmem]
    intro hlt
    exact hmem
  | case3 x h =>
    rw [drainAvail, dif_neg h]
    intro hlt
    exact absurd hlt h

lemma drainLoop_inv (hours : List Nat) (arrivals : List Nat) :
    ∀ st : DrainState,
      st.consumed = hours.take st.nextToProcess →
      st.progress = st.consumed.length →
      st.nextToProcess ≤ hours.length →
      (drainLoop hours st arrivals).consumed
          = hours.take (drainLoop hours st arrivals).nextToProcess
        ∧ (drainLoop hours st arrivals).progress
          = (drainLoop hours st arrivals).consumed.length
        ∧ (drainLoop hours st arrivals).nextToProcess ≤ hours.length
        ∧ ((drainLoop hours st arrivals).consumed
            ++ (drainLoop hours st arrivals).stored).Perm
              (st.consumed ++ st.stored ++ arrivals) := by
  induction arrivals with
  | nil =>
    intro st h1 h2 h3
    refine ⟨h1, h2, h3, ?_⟩
    rw [List.append_nil]
    exact List.Perm.refl _
  | cons a rest ih =>
    intro st h1 h2 h3
    have hpre := drainAvail_inv hours ⟨a :: st.stored, st.nextToProcess,
      st.consumed, st.progress⟩ h1 h2 h3
    have hperm := drainAvail_perm hours ⟨a :: st.stored, st.nextToProcess,
      st.consumed, st.progress⟩
    have hrec := ih (drainAvail hours ⟨a :: st.stored, st.nextToProcess,
      st.consumed, st.progress⟩) hpre.1 hpre.2.1 hpre.2.2
    refine ⟨hrec.1, hrec.2.1, hrec.2.2.1, ?_⟩
    refine hrec.2.2.2.trans ?_
    refine (List.Perm.append_right rest hperm).trans ?_
    show (st.consumed ++ (a :: st.stored) ++ rest).Perm
        (st.consumed ++ st.stored ++ (a :: rest))
    rw [List.append_assoc, List.append_assoc]
    refine List.Perm.append_left st.consumed ?_
    show ((a :: st.stored) ++ rest).Perm (st.stored ++ (a :: rest))
    exact List.perm_middle.symm

lemma drainLoop_exit (hours : List Nat) (arrivals : List Nat) :
    ∀ st : DrainState, arrivals ≠ [] →
      ∀ hlt : (drainLoop hours st arrivals).nextToProcess < hours.length,
        hours.get ⟨(drainLoop hours st arrivals).nextToProcess, hlt⟩
          ∉ (drainLoop hours st arrivals).stored := by
  induction arrivals with
  | nil =>
    intro st hne
    exact absurd rfl hne
  | cons a rest ih =>
    intro st _
    match rest, ih with
    | [], _ =>
      exact drainAvail_exit hours ⟨a :: st.stored, st.nextToProcess,
        st.consumed, st.progress⟩
    | b :: rest2, ih =>
      exact ih _ (by simp)

/-- C5: the drain loop consumes hours in exactly the order of the hour list
— its consumed sequence is always the in-order prefix up to the cursor, for
every arrival order — and each consumed hour advances the progress counter
exactly once; when the arrivals are a permutation of a duplicate-free hour
list, every hour is consumed, in order, and the progress counter ends equal
to the total hour count. -/
theorem c5_ordered_drain (hours arrivals : List Nat) :
    ((drainRun hours arrivals).consumed
        = hours.take (drainRun hours arrivals).nextToProcess)
    ∧ ((drainRun hours arrivals).progress
        = (drainRun hours arrivals).consumed.length)
    ∧ (hours.Nodup → arrivals.Perm hours →
        (drainRun hours arrivals).consumed = hours
        ∧ (drainRun hours arrivals).progress = hours.length) := by
  have hinv := drainLoop_inv hours arrivals ⟨[], 0, [], 0⟩ rfl rfl (Nat.zero_le _)
  have hrw : drainLoop hours ⟨[], 0, [], 0⟩ arrivals = drainRun hours arrivals := rfl
  rw [hrw] at hinv
  refine ⟨hinv.1, hinv.2.1, ?_⟩
  intro hnd hperm
  have htot : ((drainRun hours arrivals).consumed
      ++ (drainRun hours arrivals).stored).Perm hours := by
    refine hinv.2.2.2.trans ?_
    simpa using hperm
  have hnext : (drainRun hours arrivals).nextToProcess = hours.length := by
    rcases lt_or_eq_of_le hinv.2.2.1 with hlt | he
    · exfalso
      rcases Classical.em (arrivals = []) with rfl | hne
      · have hh : hours = [] := by
          have h0 : drainRun hours ([] : List Nat) = ⟨[], 0, [], 0⟩ := rfl
          exact (List.perm_nil.mp (hperm.symm)).symm ▸ rfl
        rw [hh] at hlt
        exact absurd hlt (by simp)
      · have hexit := drainLoop_exit hours arrivals ⟨[], 0, [], 0⟩ hne
        rw [hrw] at hexit
        have hexit2 := hexit hlt
        have hxh : hours.get ⟨(drainRun hours arrivals).nextToProcess, hlt⟩ ∈ hours :=
          List.get_mem hours _ hlt
        have hxcs := htot.mem_iff.mpr hxh
        rcases List.mem_append.mp hxcs with hxc | hxs
        · rw [hinv.1, List.mem_take_iff_getElem] at hxc
          obtain ⟨j, hj, hje⟩ := hxc
          have hjn : j < (drainRun hours arrivals).nextToProcess :=
            lt_of_lt_of_le hj (min_le_left _ _)
          have hji : j < hours.length := lt_of_lt_of_le hj (min_le_right _ _)
          have hget : hours.get ⟨j, hji⟩
              = hours.get ⟨(drainRun hours arrivals).nextToProcess, hlt⟩ := by
            rw [List.get_eq_getElem, List.get_eq_getElem]
            exact hje
          have := hnd.get_inj_iff.mp hget
          have hje2 : j = (drainRun hours arrivals).nextToProcess :=
            congrArg Fin.val this
          omega
        · exact hexit2 hxs
    · exact he
  constructor
  · rw [hinv.1, hnext, List.take_length]
  · rw [hinv.2.1, hinv.1, hnext, List.take_length]

theorem c5_ordered_drain_witness :
    (drainRun [10, 20, 30] [30, 10, 20]).consumed = [10, 20, 30]
    ∧ (drainRun [10, 20, 30] [30, 10, 20]).progress = 3 :=
  (c5_ordered_drain [10, 20, 30] [30, 10, 20]).2.2 (by decide) (by decide)

end Dukascopy
